import Mathlib

/-!
Verification of the mobile-phone-number extraction core of `src/app.py`
(repository `dsakai3418/mobile-phone-list`).

The Python core consists of
  - `normalize_digits` : full-width to half-width digit/plus mapping plus trim,
  - `normalize_candidate` : separator stripping, `+81` rewriting, digit filtering,
  - `is_valid_jp_mobile` : `re.fullmatch` against `^(070|080|090)\d{8}$`,
  - a candidate-scanning regex `\+?\d[\d\-\s‐-―−]*\d` used with
    `findall`, and
  - `extract_mobile_numbers_from_multiple_columns`, a priority-ordered
    multi-column extractor over a pandas DataFrame.

Strings are modelled as `List Char`.  Python's `str`-pattern regexes are
Unicode-aware: `\d` matches every character of Unicode general category Nd
(decimal digit) and `\s` matches the Unicode whitespace set, which is also the
set used by `str.strip()` and `str.isspace()`.  The predicates `isPyDigit` and
`isPySpace` below embed those character classes.  Cells of a DataFrame row are
modelled as `Option (List Char)` (`none` is pandas NaN/None), a row as an
ordered association list from column names to cells, and a DataFrame as a list
of rows together with its declared column list.
-/

namespace App

/-- Closed interval test on naturals, used to embed regex character ranges. -/
def between (a b n : Nat) : Bool := decide (a ≤ n) && decide (n ≤ b)

/-- Unicode decimal digits (general category Nd): the character class matched
by `\d` in a Python 3 `str` regex.  The ranges are the Nd blocks of the
Unicode character database (ASCII digits, Arabic-Indic digits, Devanagari
digits, ..., full-width digits `０`-`９`, and the supplementary-plane digit
blocks). -/
def isPyDigit (c : Char) : Bool :=
  let n := c.toNat
  between 0x30 0x39 n ||
  between 0x660 0x669 n || between 0x6F0 0x6F9 n || between 0x7C0 0x7C9 n ||
  between 0x966 0x96F n || between 0x9E6 0x9EF n || between 0xA66 0xA6F n ||
  between 0xAE6 0xAEF n || between 0xB66 0xB6F n || between 0xBE6 0xBEF n ||
  between 0xC66 0xC6F n || between 0xCE6 0xCEF n || between 0xD66 0xD6F n ||
  between 0xDE6 0xDEF n || between 0xE50 0xE59 n || between 0xED0 0xED9 n ||
  between 0xF20 0xF29 n || between 0x1040 0x1049 n || between 0x1090 0x1099 n ||
  between 0x17E0 0x17E9 n || between 0x1810 0x1819 n || between 0x1946 0x194F n ||
  between 0x19D0 0x19D9 n || between 0x1A80 0x1A89 n || between 0x1A90 0x1A99 n ||
  between 0x1B50 0x1B59 n || between 0x1BB0 0x1BB9 n || between 0x1C40 0x1C49 n ||
  between 0x1C50 0x1C59 n || between 0xA620 0xA629 n || between 0xA8D0 0xA8D9 n ||
  between 0xA900 0xA909 n || between 0xA9D0 0xA9D9 n || between 0xA9F0 0xA9F9 n ||
  between 0xAA50 0xAA59 n || between 0xABF0 0xABF9 n || between 0xFF10 0xFF19 n ||
  between 0x104A0 0x104A9 n || between 0x10D30 0x10D39 n ||
  between 0x11066 0x1106F n || between 0x110F0 0x110F9 n ||
  between 0x11136 0x1113F n || between 0x111D0 0x111D9 n ||
  between 0x112F0 0x112F9 n || between 0x11450 0x11459 n ||
  between 0x114D0 0x114D9 n || between 0x11650 0x11659 n ||
  between 0x116C0 0x116C9 n || between 0x11730 0x11739 n ||
  between 0x118E0 0x118E9 n || between 0x11950 0x11959 n ||
  between 0x11C50 0x11C59 n || between 0x11D50 0x11D59 n ||
  between 0x11DA0 0x11DA9 n || between 0x16A60 0x16A69 n ||
  between 0x16B50 0x16B59 n || between 0x1D7CE 0x1D7FF n ||
  between 0x1E140 0x1E149 n || between 0x1E2F0 0x1E2F9 n ||
  between 0x1E950 0x1E959 n || between 0x1FBF0 0x1FBF9 n

/-- The Unicode whitespace set: the characters for which Python's
`str.isspace()` holds, which is also the class matched by `\s` in a `str`
regex and the set trimmed by `str.strip()`. -/
def isPySpace (c : Char) : Bool :=
  let n := c.toNat
  between 0x9 0xD n || between 0x1C 0x20 n || decide (n = 0x85) ||
  decide (n = 0xA0) || decide (n = 0x1680) || between 0x2000 0x200A n ||
  decide (n = 0x2028) || decide (n = 0x2029) || decide (n = 0x202F) ||
  decide (n = 0x205F) || decide (n = 0x3000)

/-- The dash-like characters removed by `normalize_candidate` and accepted
inside a candidate: ASCII hyphen-minus, the Unicode dash range
U+2010 - U+2015, and the Unicode minus sign U+2212. -/
def isDashLike (c : Char) : Bool :=
  let n := c.toNat
  decide (n = 0x2D) || between 0x2010 0x2015 n || decide (n = 0x2212)

/-- ASCII digits `0`-`9`; used to state the spec-side (claimed) properties,
which speak about ASCII digits. -/
def isAsciiDigit (c : Char) : Bool :=
  between 0x30 0x39 c.toNat

/-- The translation table `FW_TO_ASCII` of `src/app.py`: each full-width
digit `０`-`９` maps to its ASCII counterpart and the full-width plus `＋`
maps to `+`; every other character is left unchanged (the semantics of
`str.translate` for characters absent from the table). -/
def FW_TO_ASCII (c : Char) : Char :=
  if c = '０' then '0' else if c = '１' then '1' else if c = '２' then '2'
  else if c = '３' then '3' else if c = '４' then '4' else if c = '５' then '5'
  else if c = '６' then '6' else if c = '７' then '7' else if c = '８' then '8'
  else if c = '９' then '9' else if c = '＋' then '+' else c

/-- Python's `str.strip()`: remove leading and trailing whitespace. -/
def pyStrip (s : List Char) : List Char :=
  ((s.dropWhile isPySpace).reverse.dropWhile isPySpace).reverse

/-- `normalize_digits` of `src/app.py`: `None` becomes the empty string;
otherwise translate through `FW_TO_ASCII` and strip surrounding
whitespace. -/
def normalize_digits : Option (List Char) → List Char
  | none => []
  | some s => pyStrip (s.map FW_TO_ASCII)

/-- `normalize_candidate` of `src/app.py`: empty input yields the empty
string; otherwise apply `normalize_digits`, delete every whitespace or
dash-like character (`re.sub` with class `[\s‐-―\-−]`),
rewrite a leading `+81` to `0`, and finally delete every character that is
not a `\d` digit (`re.sub` with `[^\d]`). -/
def normalize_candidate (candidate : List Char) : List Char :=
  if candidate.isEmpty then []
  else
    let s := normalize_digits (some candidate)
    let s := s.filter (fun c => !(isPySpace c || isDashLike c))
    let s := if s.take 3 = ['+', '8', '1'] then '0' :: s.drop 3 else s
    s.filter isPyDigit

/-- `is_valid_jp_mobile` of `src/app.py`:
`bool(re.fullmatch(r'^(070|080|090)\d{8}$', num))` - the whole string is one
of the three prefixes followed by exactly eight `\d` digits. -/
def is_valid_jp_mobile (num : List Char) : Bool :=
  (num.take 3 = ['0', '7', '0'] || num.take 3 = ['0', '8', '0'] ||
   num.take 3 = ['0', '9', '0']) &&
  decide ((num.drop 3).length = 8) && (num.drop 3).all isPyDigit

/-- Abbreviation turning a Lean string literal into the character-list model
used throughout. -/
def chars (s : String) : List Char := s.toList

/-- The character class `[\d\-\s‐-―−]` of the candidate regex
`candidate_re = \+?\d[\d\-\s‐-―−]*\d` of `src/app.py`: digits,
whitespace and dash-like characters. -/
def isCandChar (c : Char) : Bool := isPyDigit c || isPySpace c || isDashLike c

/-- Index of the last `\d` digit of a list, if any. -/
def lastDigitPos : List Char → Option Nat
  | [] => none
  | c :: rest =>
    match lastDigitPos rest with
    | some k => some (k + 1)
    | none => if isPyDigit c then some 0 else none

/-- Greedy match of the regex tail `[\d\-\s‐-―−]*\d` after an initial digit
`d`: consume the maximal run of class characters after `d`, then backtrack to
the last digit inside that run.  Returns the matched candidate (including
`d`) together with the unconsumed remainder of the text, or `none` when no
second digit is available. -/
def bodyMatch (d : Char) (r : List Char) : Option (List Char × List Char) :=
  let run := r.takeWhile isCandChar
  match lastDigitPos run with
  | none => none
  | some k => some (d :: run.take (k + 1), run.drop (k + 1) ++ r.dropWhile isCandChar)

/-- One left-to-right, non-overlapping `findall` scan with the candidate
regex, written with an explicit fuel parameter (the fuel is always
instantiated with the length of the text, which bounds the number of steps
because every step consumes at least one character). -/
def findAllAux : Nat → List Char → List (List Char)
  | 0, _ => []
  | _ + 1, [] => []
  | fuel + 1, c :: rest =>
    if isPyDigit c then
      match bodyMatch c rest with
      | some (cand, rem) => cand :: findAllAux fuel rem
      | none => findAllAux fuel rest
    else if c = '+' then
      match rest with
      | [] => []
      | d :: rest2 =>
        if isPyDigit d then
          match bodyMatch d rest2 with
          | some (cand, rem) => ('+' :: cand) :: findAllAux fuel rem
          | none => findAllAux fuel rest
        else findAllAux fuel rest
    else findAllAux fuel rest

/-- `candidate_re.findall(text)` of `src/app.py`. -/
def candidate_re_findall (s : List Char) : List (List Char) :=
  findAllAux s.length s

/-- The inner loop of the extractor over the candidates of one cell: keep
`normalize_candidate cand` for each candidate `cand` that passes
`is_valid_jp_mobile`. -/
def validCandidates : List (List Char) → List (List Char)
  | [] => []
  | cand :: rest =>
    let norm := normalize_candidate cand
    if is_valid_jp_mobile norm then norm :: validCandidates rest
    else validCandidates rest

/-- A cell value: `none` models a pandas NaN/None value. -/
abbrev Cell := Option (List Char)

/-- A DataFrame row: an ordered association list from column names to
cells.  `row.lookup c = none` models a column absent from the row. -/
abbrev Row := List (String × Cell)

/-- A DataFrame: its declared column list and its rows. -/
structure Table where
  cols : List String
  rows : List Row
deriving DecidableEq

/-- The guarded cell access of the extractor:
`col_name in row and pd.notna(row[col_name])`; both an absent column and a
null cell yield `none`. -/
def getCell (row : Row) (c : String) : Option (List Char) :=
  match row.lookup c with
  | some (some v) => some v
  | _ => none

/-- Scan one column of one row: the list of validated normalized candidates
extracted from that cell (`extracted_from_col` in `src/app.py`); empty when
the column is absent or null. -/
def extracted_from_col (row : Row) (c : String) : List (List Char) :=
  match getCell row c with
  | none => []
  | some text => validCandidates (candidate_re_findall text)

/-- The priority loop of the extractor: walk the caller-supplied column list
in order and adopt the validated-candidate list of the first column that
yields a non-empty one (`found_mobile_numbers` with its `break` in
`src/app.py`). -/
def found_for_row (row : Row) : List String → List (List Char)
  | [] => []
  | c :: cs =>
    let e := extracted_from_col row c
    if e.isEmpty then found_for_row row cs else e

/-- The deduplication loop of `src/app.py` (`seen` set plus `deduped`
accumulator), generalized over the element type. -/
def dedupeAux {α : Type} [DecidableEq α] (seen : List α) : List α → List α
  | [] => []
  | n :: rest =>
    if n ∈ seen then dedupeAux seen rest else n :: dedupeAux (n :: seen) rest

/-- Deduplicate keeping first occurrences, as in `src/app.py`. -/
def dedupe {α : Type} [DecidableEq α] (l : List α) : List α := dedupeAux [] l

/-- Python's `','.join`. -/
def commaJoin : List (List Char) → List Char
  | [] => []
  | [x] => x
  | x :: y :: rest => x ++ ',' :: commaJoin (y :: rest)

/-- Pandas `Series.__setitem__` by label: when the label already exists its
value is replaced in place, otherwise the pair is appended at the end. -/
def setField (row : Row) (k : String) (v : Cell) : Row :=
  if (row.lookup k).isSome then
    row.map (fun p => if p.1 = k then (k, v) else p)
  else row ++ [(k, v)]

/-- Processing of one row of the extractor: `none` when the deduplicated
list is empty (the row is dropped), otherwise the row with the
`extracted_mobile_numbers` field set to the comma-joined list. -/
def processRow (cols : List String) (row : Row) : Option Row :=
  let deduped := dedupe (found_for_row row cols)
  if deduped.isEmpty then none
  else some (setField row "extracted_mobile_numbers" (some (commaJoin deduped)))

/-- The `results` accumulation loop of `src/app.py`. -/
def resultRows (cols : List String) : List Row → List Row
  | [] => []
  | row :: rest =>
    match processRow cols row with
    | some r => r :: resultRows cols rest
    | none => resultRows cols rest

/-- Column inference of `pd.DataFrame(results)` for a list of row Series:
the union of the rows' labels in order of first appearance. -/
def unionKeys (rows : List Row) : List String :=
  dedupe ((rows.map (fun r => r.map Prod.fst)).flatten)

/-- `extract_mobile_numbers_from_multiple_columns` of `src/app.py`: build
the result rows; if none were produced return an empty table that still
declares the input columns plus `extracted_mobile_numbers`, otherwise wrap
the produced rows. -/
def extract_mobile_numbers_from_multiple_columns (df : Table) (cols : List String) : Table :=
  let results := resultRows cols df.rows
  if results.isEmpty then
    { cols := df.cols ++ ["extracted_mobile_numbers"], rows := [] }
  else
    { cols := unionKeys results, rows := results }

/-!
Claim-side (specification) definitions.  These follow the wording of the
specification and of the claims, parameterized over the digit predicate `D`
so that the spec's "ASCII digit" reading (`isAsciiDigit`) and the code's
Unicode reading (`isPyDigit`) can both be instantiated.
-/

/-- Character admissible inside a candidate according to the spec: a digit
(in the sense of `D`) or one of the whitespace/dash characters. -/
def candCharOf (D : Char → Bool) (c : Char) : Bool :=
  D c || isPySpace c || isDashLike c

/-- Membership in the language of the regex body `\d[...]*\d` for digit
predicate `D`: non-empty, starts on a digit, ends on a digit, length at
least two, interior characters admissible. -/
def bodyShape (D : Char → Bool) : List Char → Bool
  | [] => false
  | d :: rest =>
    D d && !rest.isEmpty && rest.all (candCharOf D) &&
    (match rest.getLast? with
     | some e => D e
     | none => false)

/-- Membership in the candidate-shape language: an optional leading `+`
followed by a body. -/
def candShape (D : Char → Bool) : List Char → Bool
  | [] => false
  | c :: rest => if c = '+' then bodyShape D rest else bodyShape D (c :: rest)

/-- Largest `n` with `1 ≤ n ≤ N` such that the first `n` characters of `s`
form a candidate (the greedy/longest match at this start position). -/
def longestAux (D : Char → Bool) (s : List Char) : Nat → Option Nat
  | 0 => none
  | n + 1 =>
    if candShape D (s.take (n + 1)) then some (n + 1) else longestAux D s n

/-- Reference `findall` semantics, from the spec's words: scan left to
right; at the first position admitting a match take the longest (greedy)
match, emit it, and continue after it (non-overlapping); otherwise advance
one character.  Fuel-indexed; the fuel is instantiated with the text length,
which bounds the number of steps. -/
def findallSpecAux (D : Char → Bool) : Nat → List Char → List (List Char)
  | 0, _ => []
  | _ + 1, [] => []
  | fuel + 1, c :: rest =>
    match longestAux D (c :: rest) (c :: rest).length with
    | some n => (c :: rest).take n :: findallSpecAux D fuel ((c :: rest).drop n)
    | none => findallSpecAux D fuel rest

/-- The spec's candidate scan: all non-overlapping maximal candidate-shaped
substrings, left to right, greedily. -/
def findallSpec (D : Char → Bool) (s : List Char) : List (List Char) :=
  findallSpecAux D s.length s

/-- The claimed shape of a valid mobile number (section 4.2 of the spec):
the string consists, in its entirety, of one of the prefixes `070`, `080`,
`090` followed by exactly eight more digits in the sense of `D`. -/
def ValidShape (D : Char → Bool) (s : List Char) : Prop :=
  ∃ t : List Char,
    (s = chars "070" ++ t ∨ s = chars "080" ++ t ∨ s = chars "090" ++ t) ∧
    t.length = 8 ∧ ∀ c ∈ t, D c = true

/-- Spec-side separator deletion (section 4.1): delete every whitespace or
dash-like character wherever it occurs. -/
def removeSepsSpec : List Char → List Char
  | [] => []
  | c :: rest =>
    if isPySpace c || isDashLike c then removeSepsSpec rest
    else c :: removeSepsSpec rest

/-- Spec-side international-prefix rewriting (section 4.1): a leading
literal `+81` is replaced by a single `0`. -/
def plus81Spec : List Char → List Char
  | '+' :: '8' :: '1' :: t => '0' :: t
  | l => l

/-- Spec-side final cleanup (section 4.1): delete every character that is
not a digit in the sense of `D`. -/
def keepDigitsSpec (D : Char → Bool) : List Char → List Char
  | [] => []
  | c :: rest =>
    if D c then c :: keepDigitsSpec D rest else keepDigitsSpec D rest

/-- The reference normalization pipeline of section 4.1 of the spec, with
the final "keep only digits" step parameterized by the digit predicate:
empty input gives empty output; otherwise apply `normalizeDigits`, delete
whitespace and dashes, rewrite a leading `+81`, and keep only digits. -/
def normalizeCandidateSpec (D : Char → Bool) (s : List Char) : List Char :=
  match s with
  | [] => []
  | _ => keepDigitsSpec D (plus81Spec (removeSepsSpec (normalize_digits (some s))))

/-- Spec-side first-occurrence deduplication, from the claim's words: each
element is kept at the position of its first appearance and all of its later
duplicates are removed.  Fuel-indexed (the fuel is instantiated with the
list length, which bounds the recursion depth because filtering never makes
a list longer). -/
def specDedupAux {α : Type} [DecidableEq α] : Nat → List α → List α
  | 0, _ => []
  | _ + 1, [] => []
  | fuel + 1, x :: xs => x :: specDedupAux fuel (xs.filter (fun y => decide (y ≠ x)))

/-- Spec-side first-occurrence deduplication. -/
def specDedup {α : Type} [DecidableEq α] (l : List α) : List α :=
  specDedupAux l.length l

/-!
Concrete inputs used by the witnesses and counterexamples below.
-/

/-- A row whose columns `A` and `B` both hold (different) valid numbers. -/
def rowAB : Row :=
  [("A", some (chars "09011112222")), ("B", some (chars "09033334444"))]

/-- A row that already carries a field named `extracted_mobile_numbers`
before extraction. -/
def rowReserved : Row :=
  [("extracted_mobile_numbers", some (chars "keep")),
   ("phone", some (chars "09012345678"))]

/-- A one-row table that already has an `extracted_mobile_numbers` column. -/
def dfReserved : Table :=
  { cols := ["extracted_mobile_numbers", "phone"], rows := [rowReserved] }

/-- A clean one-row table with a single phone column. -/
def dfPhone : Table :=
  { cols := ["phone"], rows := [[("phone", some (chars "+81 90-1234-5678"))]] }

/-- A one-row table containing no phone number at all. -/
def dfNoHit : Table :=
  { cols := ["name"], rows := [[("name", some (chars "hello world"))]] }

example : findallSpec isPyDigit (chars "090-1111-2222 call 09011112222") =
    [chars "090-1111-2222", chars "09011112222"] := by decide
example : findallSpec isAsciiDigit (chars "０９") = [] := by decide
example : findallSpec isPyDigit (chars "０９") = [chars "０９"] := by decide
example : findallSpec isPyDigit (chars "90+12") = [chars "90", chars "+12"] := by decide
example : normalizeCandidateSpec isAsciiDigit (chars "٥") = [] := by decide
example : normalizeCandidateSpec isPyDigit (chars "٥") = chars "٥" := by decide
example : specDedup [1, 2, 1, 3, 2] = [1, 2, 3] := by decide

example : candidate_re_findall (chars "090-1111-2222 call 09011112222") =
    [chars "090-1111-2222", chars "09011112222"] := by decide
example : candidate_re_findall (chars "+81 90-1234-5678") = [chars "+81 90-1234-5678"] := by decide
example : candidate_re_findall (chars "９＋１") = [] := by decide
example : candidate_re_findall (chars "9+1") = [] := by decide
example : candidate_re_findall (chars "++90") = [chars "+90"] := by decide
example : candidate_re_findall (chars "+9") = [] := by decide
example : candidate_re_findall (chars "90+12") = [chars "90", chars "+12"] := by decide
example : candidate_re_findall (chars "1 x 23") = [chars "23"] := by decide
example : candidate_re_findall (chars "90- ") = [chars "90"] := by decide
example : candidate_re_findall (chars "０９") = [chars "０９"] := by decide
example : dedupe (validCandidates (candidate_re_findall
    (chars "090-1111-2222 call 09011112222"))) = [chars "09011112222"] := by decide

example : is_valid_jp_mobile (chars "09012345678") = true := by decide
example : is_valid_jp_mobile (chars "0901234567") = false := by decide
example : is_valid_jp_mobile (chars "06012345678") = false := by decide
example : is_valid_jp_mobile (chars "090123456789") = false := by decide
example : is_valid_jp_mobile (chars "090１２３４５６７８") = true := by decide
example : normalize_candidate (chars "+81 90-1234-5678") = chars "09012345678" := by decide
example : normalize_candidate (chars "０９０－１２３４－５６７８") = chars "09012345678" := by decide
example : normalize_candidate (chars "٥") = chars "٥" := by decide

/-!
Theorems.
-/

theorem validCandidates_eq_nil (l : List (List Char))
    (h : ∀ cand ∈ l, is_valid_jp_mobile (normalize_candidate cand) = false) :
    validCandidates l = [] := by
  induction l with
  | nil => rfl
  | cons x xs ih =>
    simp only [validCandidates, h x (List.mem_cons_self x xs),
      Bool.false_eq_true, if_false]
    exact ih fun cand hc => h cand (List.mem_cons_of_mem _ hc)

/-- Claim C2: in the multi-column extractor the priority list is consulted
strictly in order; the first column whose cell yields a non-empty
validated-candidate list supplies the row's entire result and later columns
are never inspected (the result of `c :: cs` does not depend on `cs` in
that case); a column whose candidates all fail validation, or that has no
candidates, or whose cell is null or absent, is a miss, and the next column
is consulted. -/
theorem claim_C2 (row : Row) (c : String) (cs : List String) :
    found_for_row row [] = [] ∧
    (extracted_from_col row c ≠ [] →
      found_for_row row (c :: cs) = extracted_from_col row c) ∧
    (extracted_from_col row c = [] →
      found_for_row row (c :: cs) = found_for_row row cs) ∧
    (getCell row c = none → extracted_from_col row c = []) ∧
    (∀ text, getCell row c = some text →
      (∀ cand ∈ candidate_re_findall text,
        is_valid_jp_mobile (normalize_candidate cand) = false) →
      extracted_from_col row c = []) := by
  refine ⟨rfl, ?_, ?_, ?_, ?_⟩
  · intro h
    simp only [found_for_row]
    rw [if_neg]
    simp only [List.isEmpty_eq_true]
    exact h
  · intro h
    simp only [found_for_row]
    rw [if_pos]
    simp only [List.isEmpty_eq_true]
    exact h
  · intro h
    simp only [extracted_from_col, h]
  · intro text ht hall
    simp only [extracted_from_col, ht]
    exact validCandidates_eq_nil _ hall

/-- Witness for C2: on a row whose column `A` holds a valid number, the
priority result for `["A", "B"]` is exactly column `A`'s list, no matter
what column `B` holds. -/
theorem claim_C2_witness :
    found_for_row rowAB ("A" :: ["B"]) = extracted_from_col rowAB "A" :=
  (claim_C2 rowAB "A" ["B"]).2.1 (by decide)

theorem valid_shape_drop_all (D : Char → Bool) (s : List Char)
    (h : ValidShape D s) : (s.drop 3).all D = true := by
  obtain ⟨t, h3, _, hall⟩ := h
  have ht : s.drop 3 = t := by
    rcases h3 with h | h | h <;> subst h <;> rfl
  rw [ht, List.all_eq_true]
  exact hall

/-- Counterexample to claim C1 as stated: the string `090１２３４５６７８`
(the prefix `090` followed by eight full-width digits) is accepted by
`is_valid_jp_mobile`, because `\d` in a Python 3 `str` regex matches any
Unicode decimal digit, yet it does not consist of a valid prefix followed
by eight ASCII digits, which the claim says is necessary for a `true`
result. -/
theorem claim_C1_counterexample :
    is_valid_jp_mobile (chars "090１２３４５６７８") = true ∧
    ¬ ValidShape isAsciiDigit (chars "090１２３４５６７８") := by
  refine ⟨by decide, fun h => ?_⟩
  exact absurd (valid_shape_drop_all _ _ h) (by decide)

/-- Claim C1 (amended): for every string `s`, `is_valid_jp_mobile s` is
`true` if and only if `s` consists, in its entirety, of one of the prefixes
`070`, `080` or `090` followed by exactly 8 more Unicode decimal-digit
characters (the class matched by Python's `\d`, which includes the ASCII
digits, total length exactly 11); the test is a full-string match, so any
string with a strict prefix or suffix beyond that shape (10 digits, 12
digits, or prefix `060`) yields `false`. -/
theorem claim_C1_amended (s : List Char) :
    is_valid_jp_mobile s = true ↔ ValidShape isPyDigit s := by
  constructor
  · intro h
    simp only [is_valid_jp_mobile, Bool.and_eq_true, Bool.or_eq_true,
      decide_eq_true_eq, List.all_eq_true] at h
    obtain ⟨⟨h3, h8⟩, hall⟩ := h
    refine ⟨s.drop 3, ?_, h8, fun c hc => hall c hc⟩
    rcases h3 with (h | h) | h
    · refine Or.inl ?_
      show s = ['0', '7', '0'] ++ s.drop 3
      rw [← h]
      exact (List.take_append_drop 3 s).symm
    · refine Or.inr (Or.inl ?_)
      show s = ['0', '8', '0'] ++ s.drop 3
      rw [← h]
      exact (List.take_append_drop 3 s).symm
    · refine Or.inr (Or.inr ?_)
      show s = ['0', '9', '0'] ++ s.drop 3
      rw [← h]
      exact (List.take_append_drop 3 s).symm
  · rintro ⟨t, h3, h8, hall⟩
    rcases h3 with h | h | h <;> subst h
    · show is_valid_jp_mobile ('0' :: '7' :: '0' :: t) = true
      simp [is_valid_jp_mobile, h8, List.all_eq_true]
      exact fun c hc => hall c hc
    · show is_valid_jp_mobile ('0' :: '8' :: '0' :: t) = true
      simp [is_valid_jp_mobile, h8, List.all_eq_true]
      exact fun c hc => hall c hc
    · show is_valid_jp_mobile ('0' :: '9' :: '0' :: t) = true
      simp [is_valid_jp_mobile, h8, List.all_eq_true]
      exact fun c hc => hall c hc

/-- Witness for C1 (amended): a concrete accepted number has the amended
shape. -/
theorem claim_C1_witness : ValidShape isPyDigit (chars "07012345678") :=
  (claim_C1_amended (chars "07012345678")).mp (by decide)

/-- Claim C8: the core is total over its documented inputs; a column that
is absent from the row or whose cell is null contributes zero candidates,
and null or empty inputs to the normalizer and validator produce empty or
negative results rather than errors. -/
theorem claim_C8 (row : Row) (c : String) :
    ((row.lookup c = none ∨ row.lookup c = some none) →
      extracted_from_col row c = []) ∧
    normalize_digits none = [] ∧
    normalize_candidate [] = [] ∧
    is_valid_jp_mobile [] = false := by
  refine ⟨?_, rfl, rfl, rfl⟩
  intro h
  have hg : getCell row c = none := by
    unfold getCell
    rcases h with h | h <;> rw [h]
  simp only [extracted_from_col, hg]

/-- Witness for C8: looking up a column absent from a concrete row yields
zero candidates. -/
theorem claim_C8_witness : extracted_from_col rowAB "C" = [] :=
  (claim_C8 rowAB "C").1 (Or.inl (by decide))

theorem ascii_digit_char_facts (c : Char) (h : isAsciiDigit c = true) :
    FW_TO_ASCII c = c ∧ isPySpace c = false ∧ isDashLike c = false ∧
    isPyDigit c = true ∧ c ≠ '+' := by
  have hn : 0x30 ≤ c.toNat ∧ c.toNat ≤ 0x39 := by
    simpa [isAsciiDigit, between, Bool.and_eq_true, decide_eq_true_eq] using h
  have hne : ∀ d : Char, isAsciiDigit d = false → c ≠ d := by
    intro d hd he
    subst he
    rw [h] at hd
    exact absurd hd (by simp)
  refine ⟨?_, ?_, ?_, ?_, ?_⟩
  · unfold FW_TO_ASCII
    rw [if_neg (hne '０' (by decide)), if_neg (hne '１' (by decide)),
      if_neg (hne '２' (by decide)), if_neg (hne '３' (by decide)),
      if_neg (hne '４' (by decide)), if_neg (hne '５' (by decide)),
      if_neg (hne '６' (by decide)), if_neg (hne '７' (by decide)),
      if_neg (hne '８' (by decide)), if_neg (hne '９' (by decide)),
      if_neg (hne '＋' (by decide))]
  · cases hs : isPySpace c with
    | false => rfl
    | true =>
      exfalso
      simp only [isPySpace, between, Bool.or_eq_true, Bool.and_eq_true,
        decide_eq_true_eq] at hs
      omega
  · cases hs : isDashLike c with
    | false => rfl
    | true =>
      exfalso
      simp only [isDashLike, between, Bool.or_eq_true, Bool.and_eq_true,
        decide_eq_true_eq] at hs
      omega
  · simp only [isPyDigit, between, Bool.or_eq_true, Bool.and_eq_true,
      decide_eq_true_eq]
    omega
  · exact hne '+' (by decide)

theorem dropWhile_eq_self_of_not {α : Type} (p : α → Bool) (l : List α)
    (h : ∀ c ∈ l, p c = false) : l.dropWhile p = l := by
  cases l with
  | nil => rfl
  | cons a as => simp [List.dropWhile_cons, h a (List.mem_cons_self a as)]

theorem pyStrip_eq_self (l : List Char) (h : ∀ c ∈ l, isPySpace c = false) :
    pyStrip l = l := by
  unfold pyStrip
  rw [dropWhile_eq_self_of_not _ l h,
    dropWhile_eq_self_of_not _ l.reverse (fun c hc => h c (List.mem_reverse.mp hc)),
    List.reverse_reverse]

theorem normalize_candidate_fixed (x : List Char)
    (h : x.all isAsciiDigit = true) : normalize_candidate x = x := by
  rw [List.all_eq_true] at h
  by_cases hx : x = []
  · subst hx; rfl
  · have hmap : x.map FW_TO_ASCII = x := by
      rw [List.map_congr_left
        (fun a ha => (ascii_digit_char_facts a (h a ha)).1), List.map_id']
    have hstrip : normalize_digits (some x) = x := by
      simp only [normalize_digits, hmap]
      exact pyStrip_eq_self x fun c hc => (ascii_digit_char_facts c (h c hc)).2.1
    have hfilter : x.filter (fun c => !(isPySpace c || isDashLike c)) = x := by
      rw [List.filter_eq_self]
      intro a ha
      rw [(ascii_digit_char_facts a (h a ha)).2.1,
        (ascii_digit_char_facts a (h a ha)).2.2.1]
      rfl
    have htake : x.take 3 ≠ ['+', '8', '1'] := by
      intro he
      have hplus : '+' ∈ x :=
        List.take_subset 3 x (he ▸ List.mem_cons_self '+' ['8', '1'])
      exact (ascii_digit_char_facts '+' (h '+' hplus)).2.2.2.2 rfl
    have hempty : x.isEmpty = false := by
      simpa [List.isEmpty_eq_false] using hx
    simp only [normalize_candidate, hempty, Bool.false_eq_true, if_false,
      hstrip, hfilter, htake, if_neg htake]
    rw [List.filter_eq_self]
    intro a ha
    exact (ascii_digit_char_facts a (h a ha)).2.2.2.1

/-- Claim C9: `normalize_candidate` is idempotent on digit strings; for
every `x` that is already ASCII-digits-only, applying it twice yields the
same digit string as applying it once. -/
theorem claim_C9 (x : List Char) (h : x.all isAsciiDigit = true) :
    normalize_candidate (normalize_candidate x) = normalize_candidate x := by
  rw [normalize_candidate_fixed x h]
  exact normalize_candidate_fixed x h

/-- Witness for C9 at a concrete digit string. -/
theorem claim_C9_witness :
    normalize_candidate (normalize_candidate (chars "09012345678")) =
      normalize_candidate (chars "09012345678") :=
  claim_C9 (chars "09012345678") (by decide)

theorem specDedupAux_adequate {α : Type} [DecidableEq α] :
    ∀ (fuel : Nat) (l : List α), l.length ≤ fuel →
      specDedupAux fuel l = specDedupAux l.length l := by
  intro fuel
  induction fuel using Nat.strong_induction_on with
  | _ fuel ih =>
    match fuel with
    | 0 =>
      intro l hl
      rw [List.length_eq_zero.mp (Nat.le_zero.mp hl)]
      rfl
    | f + 1 =>
      intro l hl
      match l with
      | [] => rfl
      | x :: xs =>
        simp only [specDedupAux, List.length_cons]
        have hxs : xs.length ≤ f := Nat.le_of_succ_le_succ hl
        have hflt : (xs.filter (fun y => decide (y ≠ x))).length ≤ xs.length :=
          List.length_filter_le _ _
        rw [ih f (Nat.lt_succ_self f) _ (le_trans hflt hxs),
          ih xs.length (Nat.lt_succ_of_le hxs) _ hflt]

theorem specDedup_cons {α : Type} [DecidableEq α] (x : α) (xs : List α) :
    specDedup (x :: xs) = x :: specDedup (xs.filter (fun y => decide (y ≠ x))) := by
  simp only [specDedup, List.length_cons, specDedupAux]
  rw [specDedupAux_adequate xs.length _ (List.length_filter_le _ _)]

theorem dedupeAux_eq_specDedup {α : Type} [DecidableEq α] :
    ∀ (l seen : List α),
      dedupeAux seen l = specDedup (l.filter (fun y => decide (y ∉ seen))) := by
  intro l
  induction l with
  | nil => intro seen; rfl
  | cons x xs ih =>
    intro seen
    by_cases hx : x ∈ seen
    · rw [show dedupeAux seen (x :: xs) = dedupeAux seen xs by
        simp only [dedupeAux, if_pos hx]]
      rw [List.filter_cons, show decide (x ∉ seen) = false by simp [hx]]
      simp only [Bool.false_eq_true, if_false]
      exact ih seen
    · rw [show dedupeAux seen (x :: xs) = x :: dedupeAux (x :: seen) xs by
        simp only [dedupeAux, if_neg hx]]
      rw [List.filter_cons, show decide (x ∉ seen) = true by simp [hx]]
      simp only [if_true, specDedup_cons, List.filter_filter]
      rw [ih (x :: seen)]
      have hpred : (fun y => decide (y ∉ x :: seen)) =
          (fun a => decide (a ≠ x) && decide (a ∉ seen)) := by
        funext a
        simp [List.mem_cons, not_or, Bool.decide_and]
      rw [hpred]

theorem dedupe_eq_specDedup {α : Type} [DecidableEq α] (l : List α) :
    dedupe l = specDedup l := by
  rw [dedupe, dedupeAux_eq_specDedup l []]
  congr 1
  rw [List.filter_eq_self]
  intro a _
  simp

/-- Claim C6: the adopted list of validated numbers is deduplicated
preserving first occurrences; each distinct number appears exactly once, at
the position of its first appearance (formalized: the extractor's
deduplication equals the specification function that keeps the first copy
of each element and deletes all later duplicates); in particular the cell
`090-1111-2222 call 09011112222` yields exactly the single number
`09011112222`. -/
theorem claim_C6 :
    (∀ l : List (List Char), dedupe l = specDedup l) ∧
    dedupe (validCandidates (candidate_re_findall
      (chars "090-1111-2222 call 09011112222"))) = [chars "09011112222"] :=
  ⟨fun l => dedupe_eq_specDedup l, by decide⟩

theorem setField_append (row : Row) (k : String) (v : Cell)
    (h : row.lookup k = none) : setField row k v = row ++ [(k, v)] := by
  simp only [setField, h, Option.isSome_none, Bool.false_eq_true, if_false]

theorem extract_rows_eq (df : Table) (cols : List String) :
    (extract_mobile_numbers_from_multiple_columns df cols).rows =
      resultRows cols df.rows := by
  unfold extract_mobile_numbers_from_multiple_columns
  cases h : (resultRows cols df.rows).isEmpty
  · simp only [h, Bool.false_eq_true, if_false]
  · simp only [h, if_true]
    exact (List.isEmpty_eq_true.mp h).symm

theorem processRow_none (cols : List String) (row : Row)
    (hd : (dedupe (found_for_row row cols)).isEmpty = true) :
    processRow cols row = none := by
  simp only [processRow, hd, if_true]

theorem processRow_some (cols : List String) (row : Row)
    (hd : (dedupe (found_for_row row cols)).isEmpty = false) :
    processRow cols row = some (setField row "extracted_mobile_numbers"
      (some (commaJoin (dedupe (found_for_row row cols))))) := by
  simp only [processRow, hd, Bool.false_eq_true, if_false]

theorem resultRows_filter_map (cols : List String) :
    ∀ rows : List Row,
      (∀ row ∈ rows, row.lookup "extracted_mobile_numbers" = none) →
      resultRows cols rows =
        (rows.filter
          (fun r => !(dedupe (found_for_row r cols)).isEmpty)).map
          (fun r => r ++ [("extracted_mobile_numbers",
            some (commaJoin (dedupe (found_for_row r cols))))]) := by
  intro rows
  induction rows with
  | nil => intro _; rfl
  | cons row rest ih =>
    intro h
    have hrest := fun r hr => h r (List.mem_cons_of_mem _ hr)
    cases hd : (dedupe (found_for_row row cols)).isEmpty
    · rw [show resultRows cols (row :: rest) =
          setField row "extracted_mobile_numbers"
              (some (commaJoin (dedupe (found_for_row row cols)))) ::
            resultRows cols rest by
        simp only [resultRows, processRow_some cols row hd]]
      rw [setField_append row _ _ (h row (List.mem_cons_self _ _))]
      rw [List.filter_cons, show (!(dedupe (found_for_row row cols)).isEmpty) = true by
        rw [hd]; rfl]
      simp only [if_true, List.map_cons]
      rw [ih hrest]
    · rw [show resultRows cols (row :: rest) = resultRows cols rest by
        simp only [resultRows, processRow_none cols row hd]]
      rw [List.filter_cons, show (!(dedupe (found_for_row row cols)).isEmpty) = false by
        rw [hd]; rfl]
      simp only [Bool.false_eq_true, if_false]
      exact ih hrest

/-- Counterexample to claim C3 as stated: on an input table that already
has a column named `extracted_mobile_numbers` (here holding `keep`), the
emitted result row does not carry all of the row's original column values
unchanged plus one new field; instead the existing field's value is
overwritten in place (pandas `Series.__setitem__` by an existing label), so
the returned row differs from the claimed `original fields + appended
field` shape. -/
theorem claim_C3_counterexample :
    (extract_mobile_numbers_from_multiple_columns dfReserved ["phone"]).rows =
      [[("extracted_mobile_numbers", some (chars "09012345678")),
        ("phone", some (chars "09012345678"))]] ∧
    (extract_mobile_numbers_from_multiple_columns dfReserved ["phone"]).rows ≠
      [rowReserved ++ [("extracted_mobile_numbers",
        some (commaJoin (dedupe (found_for_row rowReserved ["phone"]))))]] :=
  ⟨by decide, by decide⟩

/-- Claim C3 (amended): for every input table none of whose rows already
has a field named `extracted_mobile_numbers`, a row of the input appears in
the result exactly when its deduplicated list of valid extracted numbers is
non-empty; each emitted row is the original row's fields unchanged plus the
new `extracted_mobile_numbers` field holding the comma-joined list; rows
with an empty list are dropped, so the result rows are a filtered view of
the input rows.  (If a row already has that field, its value is overwritten
in place instead, as the counterexample shows.) -/
theorem claim_C3_amended (df : Table) (cols : List String)
    (h : ∀ row ∈ df.rows, row.lookup "extracted_mobile_numbers" = none) :
    (extract_mobile_numbers_from_multiple_columns df cols).rows =
      (df.rows.filter
        (fun r => !(dedupe (found_for_row r cols)).isEmpty)).map
        (fun r => r ++ [("extracted_mobile_numbers",
          some (commaJoin (dedupe (found_for_row r cols))))]) := by
  rw [extract_rows_eq]
  exact resultRows_filter_map cols df.rows h

/-- Witness for C3 (amended) on a concrete clean table. -/
theorem claim_C3_witness :
    (extract_mobile_numbers_from_multiple_columns dfPhone ["phone"]).rows =
      (dfPhone.rows.filter
        (fun r => !(dedupe (found_for_row r ["phone"])).isEmpty)).map
        (fun r => r ++ [("extracted_mobile_numbers",
          some (commaJoin (dedupe (found_for_row r ["phone"]))))]) :=
  claim_C3_amended dfPhone ["phone"] (by decide)

theorem resultRows_nil (cols : List String) :
    ∀ rows : List Row, (∀ row ∈ rows, found_for_row row cols = []) →
      resultRows cols rows = [] := by
  intro rows
  induction rows with
  | nil => intro _; rfl
  | cons row rest ih =>
    intro h
    have hpr : processRow cols row = none := by
      apply processRow_none
      rw [h row (List.mem_cons_self _ _)]
      rfl
    rw [show resultRows cols (row :: rest) = resultRows cols rest by
      simp only [resultRows, hpr]]
    exact ih fun r hr => h r (List.mem_cons_of_mem _ hr)

/-- Claim C7: on an input table in which no row yields any valid number,
the extractor returns a table with zero rows whose declared column list is
exactly the input's columns followed by `extracted_mobile_numbers`. -/
theorem claim_C7 (df : Table) (cols : List String)
    (h : ∀ row ∈ df.rows, found_for_row row cols = []) :
    extract_mobile_numbers_from_multiple_columns df cols =
      { cols := df.cols ++ ["extracted_mobile_numbers"], rows := [] } := by
  unfold extract_mobile_numbers_from_multiple_columns
  rw [resultRows_nil cols df.rows h]
  rfl

/-- Witness for C7 on a concrete no-match table. -/
theorem claim_C7_witness :
    extract_mobile_numbers_from_multiple_columns dfNoHit ["name"] =
      { cols := ["name", "extracted_mobile_numbers"], rows := [] } :=
  claim_C7 dfNoHit ["name"] (by decide)

theorem resultRows_eq_filterMap (cols : List String) :
    ∀ rows : List Row, resultRows cols rows = rows.filterMap (processRow cols) := by
  intro rows
  induction rows with
  | nil => rfl
  | cons row rest ih =>
    cases hd : (dedupe (found_for_row row cols)).isEmpty
    · rw [show resultRows cols (row :: rest) =
          setField row "extracted_mobile_numbers"
              (some (commaJoin (dedupe (found_for_row row cols)))) ::
            resultRows cols rest by
        simp only [resultRows, processRow_some cols row hd]]
      rw [List.filterMap_cons, processRow_some cols row hd, ih]
    · rw [show resultRows cols (row :: rest) = resultRows cols rest by
        simp only [resultRows, processRow_none cols row hd]]
      rw [List.filterMap_cons, processRow_none cols row hd, ih]

theorem resultRows_sublist (cols : List String) :
    ∀ rows : List Row,
      List.Sublist (resultRows cols rows)
        (rows.map (fun r => setField r "extracted_mobile_numbers"
          (some (commaJoin (dedupe (found_for_row r cols)))))) := by
  intro rows
  induction rows with
  | nil => exact List.Sublist.refl []
  | cons row rest ih =>
    cases hd : (dedupe (found_for_row row cols)).isEmpty
    · rw [show resultRows cols (row :: rest) =
          setField row "extracted_mobile_numbers"
              (some (commaJoin (dedupe (found_for_row row cols)))) ::
            resultRows cols rest by
        simp only [resultRows, processRow_some cols row hd]]
      rw [List.map_cons]
      exact List.Sublist.cons₂ _ ih
    · rw [show resultRows cols (row :: rest) = resultRows cols rest by
        simp only [resultRows, processRow_none cols row hd]]
      rw [List.map_cons]
      exact List.Sublist.cons _ ih

theorem removeSepsSpec_eq (l : List Char) :
    removeSepsSpec l = l.filter (fun c => !(isPySpace c || isDashLike c)) := by
  induction l with
  | nil => rfl
  | cons c rest ih =>
    cases hc : (isPySpace c || isDashLike c)
    · rw [show removeSepsSpec (c :: rest) = c :: removeSepsSpec rest by
        simp only [removeSepsSpec, hc, Bool.false_eq_true, if_false]]
      rw [List.filter_cons, show (!(isPySpace c || isDashLike c)) = true by rw [hc]; rfl]
      simp only [if_true]
      rw [ih]
    · rw [show removeSepsSpec (c :: rest) = removeSepsSpec rest by
        simp only [removeSepsSpec, hc, if_true]]
      rw [List.filter_cons, show (!(isPySpace c || isDashLike c)) = false by rw [hc]; rfl]
      simp only [Bool.false_eq_true, if_false]
      exact ih

theorem keepDigitsSpec_eq (D : Char → Bool) (l : List Char) :
    keepDigitsSpec D l = l.filter D := by
  induction l with
  | nil => rfl
  | cons c rest ih =>
    cases hc : D c
    · rw [show keepDigitsSpec D (c :: rest) = keepDigitsSpec D rest by
        simp only [keepDigitsSpec, hc, Bool.false_eq_true, if_false]]
      rw [List.filter_cons, hc]
      simp only [Bool.false_eq_true, if_false]
      exact ih
    · rw [show keepDigitsSpec D (c :: rest) = c :: keepDigitsSpec D rest by
        simp only [keepDigitsSpec, hc, if_true]]
      rw [List.filter_cons, hc]
      simp only [if_true]
      rw [ih]

theorem plus81Spec_eq (l : List Char) :
    plus81Spec l = if l.take 3 = ['+', '8', '1'] then '0' :: l.drop 3 else l := by
  unfold plus81Spec
  split
  · simp
  · rw [if_neg]
    intro he
    have hl : l = '+' :: '8' :: '1' :: l.drop 3 := by
      conv_lhs => rw [← List.take_append_drop 3 l]
      rw [he]
      rfl
    rename_i hno
    exact hno (l.drop 3) hl

/-- Counterexample to claim C4 as stated: on the input `٥` (an Arabic-Indic
digit, Unicode category Nd), `normalize_candidate` returns `٥` itself,
because the final `re.sub(r'[^\d]', '', s)` keeps every Unicode decimal
digit, whereas the claimed reference pipeline deletes every remaining
non-ASCII-digit character and would return the empty string; the output is
also not ASCII-digits-only as the claim asserts. -/
theorem claim_C4_counterexample :
    normalize_candidate (chars "٥") ≠
      normalizeCandidateSpec isAsciiDigit (chars "٥") ∧
    ¬ (normalize_candidate (chars "٥")).all isAsciiDigit = true :=
  ⟨by decide, by decide⟩

/-- Claim C4 (amended): for every input string, `normalize_candidate`
equals the reference pipeline of section 4.1 with the final defensive step
reading "delete every remaining character that is not a Unicode decimal
digit" (Python `\d`) instead of "not an ASCII digit": empty input gives
empty output; otherwise apply `normalize_digits`, delete all whitespace and
dash-like characters wherever they occur, rewrite a leading literal `+81`
to a single `0`, then delete every remaining non-digit character; the
output is always decimal-digits-only, and
`normalize_candidate "+81 90-1234-5678" = "09012345678"`. -/
theorem claim_C4_amended :
    (∀ s : List Char, normalize_candidate s = normalizeCandidateSpec isPyDigit s) ∧
    (∀ s : List Char, (normalize_candidate s).all isPyDigit = true) ∧
    normalize_candidate (chars "+81 90-1234-5678") = chars "09012345678" := by
  refine ⟨?_, ?_, by decide⟩
  · intro s
    cases s with
    | nil => rfl
    | cons c rest =>
      rw [show normalizeCandidateSpec isPyDigit (c :: rest) =
          keepDigitsSpec isPyDigit (plus81Spec (removeSepsSpec
            (normalize_digits (some (c :: rest))))) from rfl]
      rw [keepDigitsSpec_eq, plus81Spec_eq, removeSepsSpec_eq]
      rfl
  · intro s
    unfold normalize_candidate
    cases hs : s.isEmpty
    · simp only [Bool.false_eq_true, if_false]
      rw [List.all_eq_true]
      intro a ha
      exact (List.mem_filter.mp ha).2
    · simp only [if_true]
      rfl

/-- Claim C10 (implicit): the extractor preserves the relative order of
rows; the result rows are an order-preserving subsequence of the input rows
(each processed independently and annotated), formalized both as a sublist
of the annotated input sequence and as a `filterMap` of the per-row
processing function over the input rows in order. -/
theorem claim_C10 (df : Table) (cols : List String) :
    List.Sublist (extract_mobile_numbers_from_multiple_columns df cols).rows
      (df.rows.map (fun r => setField r "extracted_mobile_numbers"
        (some (commaJoin (dedupe (found_for_row r cols)))))) ∧
    (extract_mobile_numbers_from_multiple_columns df cols).rows =
      df.rows.filterMap (processRow cols) := by
  rw [extract_rows_eq]
  exact ⟨resultRows_sublist cols df.rows, resultRows_eq_filterMap cols df.rows⟩

theorem lastDigitPos_cons_some (a : Char) (rest : List Char) (k : Nat)
    (h : lastDigitPos rest = some k) :
    lastDigitPos (a :: rest) = some (k + 1) := by
  simp [lastDigitPos, h]

theorem lastDigitPos_cons_none_pos (a : Char) (rest : List Char)
    (h : lastDigitPos rest = none) (ha : isPyDigit a = true) :
    lastDigitPos (a :: rest) = some 0 := by
  simp [lastDigitPos, h, ha]

theorem lastDigitPos_cons_none_neg (a : Char) (rest : List Char)
    (h : lastDigitPos rest = none) (ha : isPyDigit a = false) :
    lastDigitPos (a :: rest) = none := by
  simp [lastDigitPos, h, ha]

theorem lastDigitPos_none_mem :
    ∀ l : List Char, lastDigitPos l = none → ∀ c ∈ l, isPyDigit c = false := by
  intro l
  induction l with
  | nil => intro _ c hc; cases hc
  | cons a rest ih =>
    intro h c hc
    cases hr : lastDigitPos rest with
    | some k =>
      rw [lastDigitPos_cons_some a rest k hr] at h
      cases h
    | none =>
      have ha : isPyDigit a = false := by
        cases hb : isPyDigit a
        · rfl
        · rw [lastDigitPos_cons_none_pos a rest hr hb] at h
          cases h
      rcases List.mem_cons.mp hc with rfl | hc'
      · exact ha
      · exact ih hr c hc'

theorem lastDigitPos_some_facts :
    ∀ (l : List Char) (k : Nat), lastDigitPos l = some k →
      k < l.length ∧ (∃ c, l[k]? = some c ∧ isPyDigit c = true) ∧
      ∀ j, k < j → ∀ c, l[j]? = some c → isPyDigit c = false := by
  intro l
  induction l with
  | nil => intro k h; cases h
  | cons a rest ih =>
    intro k h
    cases hr : lastDigitPos rest with
    | some k' =>
      rw [lastDigitPos_cons_some a rest k' hr] at h
      obtain rfl : k' + 1 = k := Option.some.inj h
      obtain ⟨hlt, ⟨c, hc, hcd⟩, hmax⟩ := ih k' hr
      refine ⟨by simpa using Nat.succ_lt_succ hlt,
        ⟨c, by simpa using hc, hcd⟩, ?_⟩
      intro j hj d hd
      cases j with
      | zero => omega
      | succ j' =>
        rw [List.getElem?_cons_succ] at hd
        exact hmax j' (Nat.lt_of_succ_lt_succ hj) d hd
    | none =>
      have ha : isPyDigit a = true := by
        cases hb : isPyDigit a
        · rw [lastDigitPos_cons_none_neg a rest hr hb] at h
          cases h
        · rfl
      rw [lastDigitPos_cons_none_pos a rest hr ha] at h
      obtain rfl : 0 = k := Option.some.inj h
      refine ⟨Nat.succ_pos _, ⟨a, List.getElem?_cons_zero, ha⟩, ?_⟩
      intro j hj d hd
      cases j with
      | zero => omega
      | succ j' =>
        rw [List.getElem?_cons_succ] at hd
        exact lastDigitPos_none_mem rest hr d (List.getElem?_mem hd)

theorem dropWhile_head_not {α : Type} (p : α → Bool) :
    ∀ l : List α, l.dropWhile p = [] ∨
      ∃ a as, l.dropWhile p = a :: as ∧ p a = false := by
  intro l
  induction l with
  | nil => exact Or.inl rfl
  | cons x xs ih =>
    cases hx : p x
    · exact Or.inr ⟨x, xs, by simp [List.dropWhile_cons, hx], hx⟩
    · rw [show (x :: xs).dropWhile p = xs.dropWhile p by
        simp [List.dropWhile_cons, hx]]
      exact ih

theorem digit_ne_plus (c : Char) (h : isPyDigit c = true) : c ≠ '+' := by
  intro he
  subst he
  exact absurd h (by decide)

theorem candShape_cons_ne (D : Char → Bool) (c : Char) (rest : List Char)
    (hne : c ≠ '+') :
    candShape D (c :: rest) = bodyShape D (c :: rest) := by
  simp only [candShape, if_neg hne]

theorem candShape_cons_plus (D : Char → Bool) (rest : List Char) :
    candShape D ('+' :: rest) = bodyShape D rest := by
  simp only [candShape, if_pos]

theorem candShape_take_of_head_ne (c : Char) (rest : List Char)
    (hne : c ≠ '+') (j : Nat) :
    candShape isPyDigit ((c :: rest).take (j + 1)) =
      bodyShape isPyDigit ((c :: rest).take (j + 1)) := by
  rw [List.take_succ_cons, candShape_cons_ne isPyDigit c _ hne,
    ← List.take_succ_cons]

theorem longestAux_eq_none (D : Char → Bool) (s : List Char) :
    ∀ N, (∀ m, 1 ≤ m → m ≤ N → candShape D (s.take m) = false) →
      longestAux D s N = none := by
  intro N
  induction N with
  | zero => intro _; rfl
  | succ n ih =>
    intro h
    rw [show longestAux D s (n + 1) =
        if candShape D (s.take (n + 1)) then some (n + 1)
        else longestAux D s n from rfl]
    rw [h (n + 1) (by omega) (by omega)]
    simp only [Bool.false_eq_true, if_false]
    exact ih fun m h1 h2 => h m h1 (by omega)

theorem longestAux_eq_some (D : Char → Bool) (s : List Char) (n : Nat)
    (hn1 : 1 ≤ n) (htrue : candShape D (s.take n) = true) :
    ∀ N, n ≤ N → (∀ m, n < m → m ≤ N → candShape D (s.take m) = false) →
      longestAux D s N = some n := by
  intro N
  induction N with
  | zero => intro h _; omega
  | succ N ih =>
    intro hle hmax
    rw [show longestAux D s (N + 1) =
        if candShape D (s.take (N + 1)) then some (N + 1)
        else longestAux D s N from rfl]
    by_cases he : n = N + 1
    · subst he
      rw [htrue]
      simp only [if_true]
    · have hlt : n ≤ N := by omega
      rw [hmax (N + 1) (by omega) (by omega)]
      simp only [Bool.false_eq_true, if_false]
      exact ih hlt fun m hm1 hm2 => hmax m hm1 (by omega)

theorem bodyShape_take_false_of_not_digit (d : Char) (r : List Char) (j : Nat)
    (hj1 : 1 ≤ j) (hj2 : j ≤ (r.takeWhile isCandChar).length)
    (hnd : ∀ e, (r.takeWhile isCandChar)[j - 1]? = some e →
      isPyDigit e = false) :
    bodyShape isPyDigit (d :: r.take j) = false := by
  have hra : r.takeWhile isCandChar ++ r.dropWhile isCandChar = r :=
    List.takeWhile_append_dropWhile isCandChar r
  have hrunle : (r.takeWhile isCandChar).length ≤ r.length := by
    conv_rhs => rw [← hra]
    rw [List.length_append]
    omega
  have hlast : (r.take j).getLast? = (r.takeWhile isCandChar)[j - 1]? := by
    rw [List.getLast?_eq_getElem?, List.length_take,
      show min j r.length = j by omega,
      List.getElem?_take_of_lt (by omega : j - 1 < j)]
    conv_lhs => rw [← hra]
    rw [List.getElem?_append_left (by omega)]
  cases he : (r.takeWhile isCandChar)[j - 1]? with
  | none =>
    rw [List.getElem?_eq_none_iff] at he
    omega
  | some e =>
    simp only [bodyShape, hlast, he, hnd e he, Bool.and_false]

theorem bodyShape_take_false_of_badchar (d : Char) (r : List Char) (j : Nat)
    (hj1 : (r.takeWhile isCandChar).length < j) (hj2 : j ≤ r.length) :
    bodyShape isPyDigit (d :: r.take j) = false := by
  have hra : r.takeWhile isCandChar ++ r.dropWhile isCandChar = r :=
    List.takeWhile_append_dropWhile isCandChar r
  have hlr : (r.takeWhile isCandChar).length + (r.dropWhile isCandChar).length
      = r.length := by
    rw [← List.length_append, hra]
  rcases dropWhile_head_not isCandChar r with hnone | ⟨a, as, hcons, hna⟩
  · exfalso
    rw [hnone, List.length_nil] at hlr
    omega
  · obtain ⟨n, hn⟩ : ∃ n, n = (r.takeWhile isCandChar).length := ⟨_, rfl⟩
    have hidx0 : r[n]? = some a := by
      conv_lhs => rw [← hra]
      rw [List.getElem?_append_right (le_of_eq hn.symm),
        show n - (r.takeWhile isCandChar).length = 0 by omega, hcons]
      exact List.getElem?_cons_zero
    have hidx : (r.take j)[n]? = some a := by
      rw [List.getElem?_take_of_lt (by omega)]
      exact hidx0
    have hmem : a ∈ r.take j := List.getElem?_mem hidx
    have hallf : (r.take j).all (candCharOf isPyDigit) = false := by
      cases hb : (r.take j).all (candCharOf isPyDigit)
      · rfl
      · exfalso
        rw [List.all_eq_true] at hb
        have hca : isCandChar a = true := hb a hmem
        rw [hna] at hca
        cases hca
    simp only [bodyShape, hallf, Bool.and_false, Bool.false_and]

theorem bodyMatch_eq (d : Char) (r : List Char) :
    bodyMatch d r =
      match lastDigitPos (r.takeWhile isCandChar) with
      | none => none
      | some k => some (d :: (r.takeWhile isCandChar).take (k + 1),
          (r.takeWhile isCandChar).drop (k + 1) ++ r.dropWhile isCandChar) := rfl

theorem bodyMatch_some_facts (d : Char) (r : List Char) (cand rem : List Char)
    (hd : isPyDigit d = true) (hbm : bodyMatch d r = some (cand, rem)) :
    cand = (d :: r).take cand.length ∧
    rem = (d :: r).drop cand.length ∧
    2 ≤ cand.length ∧ cand.length ≤ r.length + 1 ∧
    rem.length ≤ r.length ∧
    bodyShape isPyDigit ((d :: r).take cand.length) = true ∧
    (∀ m, cand.length < m → m ≤ r.length + 1 →
      bodyShape isPyDigit ((d :: r).take m) = false) := by
  rw [bodyMatch_eq] at hbm
  have hra : r.takeWhile isCandChar ++ r.dropWhile isCandChar = r :=
    List.takeWhile_append_dropWhile isCandChar r
  have hlr : (r.takeWhile isCandChar).length + (r.dropWhile isCandChar).length
      = r.length := by
    rw [← List.length_append, hra]
  cases hldp : lastDigitPos (r.takeWhile isCandChar) with
  | none => simp [hldp] at hbm
  | some k =>
    simp only [hldp] at hbm
    have hpair := Option.some.inj hbm
    have hcand : cand = d :: (r.takeWhile isCandChar).take (k + 1) :=
      (congrArg Prod.fst hpair).symm
    have hrem : rem = (r.takeWhile isCandChar).drop (k + 1) ++
        r.dropWhile isCandChar := (congrArg Prod.snd hpair).symm
    obtain ⟨hk, ⟨c, hck, hcd⟩, hmaxd⟩ := lastDigitPos_some_facts _ k hldp
    have hclen : cand.length = k + 2 := by
      rw [hcand, List.length_cons, List.length_take]
      omega
    have htake : (d :: r).take cand.length = cand := by
      rw [hclen, hcand, List.take_succ_cons]
      congr 1
      conv_lhs => rw [← hra]
      rw [List.take_append_of_le_length (by omega)]
    have hdrop : (d :: r).drop cand.length = rem := by
      rw [hclen, hrem, List.drop_succ_cons]
      conv_lhs => rw [← hra]
      rw [List.drop_append_of_le_length (by omega)]
    refine ⟨htake.symm, hdrop.symm, by omega, by omega, ?_, ?_, ?_⟩
    · rw [hrem, List.length_append, List.length_drop]
      omega
    · rw [htake, hcand]
      have hune : (r.takeWhile isCandChar).take (k + 1) ≠ [] := by
        apply List.ne_nil_of_length_pos
        rw [List.length_take]
        omega
      have hlast : ((r.takeWhile isCandChar).take (k + 1)).getLast? = some c := by
        rw [List.getLast?_eq_getElem?, List.length_take,
          show min (k + 1) (r.takeWhile isCandChar).length = k + 1 by omega]
        rw [show k + 1 - 1 = k from rfl,
          List.getElem?_take_of_lt (Nat.lt_succ_self k)]
        exact hck
      simp only [bodyShape, Bool.and_eq_true]
      refine ⟨⟨⟨hd, ?_⟩, ?_⟩, ?_⟩
      · rw [List.isEmpty_eq_false.mpr hune]
        rfl
      · rw [List.all_eq_true]
        intro x hx
        exact List.mem_takeWhile_imp (List.take_subset _ _ hx)
      · simp only [hlast]
        exact hcd
    · intro m hm1 hm2
      obtain ⟨j, rfl⟩ : ∃ j, m = j + 1 := ⟨m - 1, by omega⟩
      rw [List.take_succ_cons]
      by_cases hj : j ≤ (r.takeWhile isCandChar).length
      · refine bodyShape_take_false_of_not_digit d r j (by omega) hj ?_
        intro e he
        exact hmaxd (j - 1) (by omega) e he
      · exact bodyShape_take_false_of_badchar d r j (by omega) (by omega)

theorem bodyMatch_none_facts (d : Char) (r : List Char)
    (hbm : bodyMatch d r = none) :
    ∀ m, m ≤ r.length + 1 → bodyShape isPyDigit ((d :: r).take m) = false := by
  rw [bodyMatch_eq] at hbm
  cases hldp : lastDigitPos (r.takeWhile isCandChar) with
  | some k => simp [hldp] at hbm
  | none =>
    intro m hm
    match m with
    | 0 => rfl
    | 1 => simp [bodyShape]
    | j + 2 =>
      rw [List.take_succ_cons]
      by_cases hj : j + 1 ≤ (r.takeWhile isCandChar).length
      · refine bodyShape_take_false_of_not_digit d r (j + 1) (by omega) hj ?_
        intro e he
        exact lastDigitPos_none_mem _ hldp e (List.getElem?_mem he)
      · exact bodyShape_take_false_of_badchar d r (j + 1) (by omega) (by omega)

theorem bodyShape_head_not (c : Char) (r : List Char)
    (hc : isPyDigit c = false) :
    ∀ m, bodyShape isPyDigit ((c :: r).take m) = false := by
  intro m
  match m with
  | 0 => rfl
  | j + 1 =>
    rw [List.take_succ_cons]
    simp only [bodyShape, hc, Bool.false_and]

theorem longest_none_other (c : Char) (rest : List Char)
    (hc : isPyDigit c = false) (hne : c ≠ '+') (N : Nat) :
    longestAux isPyDigit (c :: rest) N = none := by
  apply longestAux_eq_none
  intro m h1 _
  obtain ⟨j, rfl⟩ : ∃ j, m = j + 1 := ⟨m - 1, by omega⟩
  rw [candShape_take_of_head_ne c rest hne j]
  exact bodyShape_head_not c rest hc (j + 1)

theorem longest_digit_some (c : Char) (rest cand rem : List Char)
    (hc : isPyDigit c = true) (hbm : bodyMatch c rest = some (cand, rem)) :
    longestAux isPyDigit (c :: rest) (rest.length + 1) = some cand.length ∧
    (c :: rest).take cand.length = cand ∧
    (c :: rest).drop cand.length = rem ∧
    rem.length ≤ rest.length := by
  obtain ⟨hcand, hrem, h2, hle, hremlen, hshape, hmax⟩ :=
    bodyMatch_some_facts c rest cand rem hc hbm
  have hne := digit_ne_plus c hc
  refine ⟨?_, hcand.symm, hrem.symm, hremlen⟩
  have htrue : candShape isPyDigit ((c :: rest).take cand.length) = true := by
    obtain ⟨j, hj⟩ : ∃ j, cand.length = j + 1 := ⟨cand.length - 1, by omega⟩
    rw [hj, candShape_take_of_head_ne c rest hne j, ← hj]
    exact hshape
  refine longestAux_eq_some isPyDigit (c :: rest) cand.length (by omega) htrue
    (rest.length + 1) (by omega) ?_
  intro m hm1 hm2
  obtain ⟨j, rfl⟩ : ∃ j, m = j + 1 := ⟨m - 1, by omega⟩
  rw [candShape_take_of_head_ne c rest hne j]
  exact hmax (j + 1) hm1 hm2

theorem longest_digit_none (c : Char) (rest : List Char)
    (hc : isPyDigit c = true) (hbm : bodyMatch c rest = none) (N : Nat)
    (hN : N ≤ rest.length + 1) :
    longestAux isPyDigit (c :: rest) N = none := by
  apply longestAux_eq_none
  intro m h1 h2
  obtain ⟨j, rfl⟩ : ∃ j, m = j + 1 := ⟨m - 1, by omega⟩
  rw [candShape_take_of_head_ne c rest (digit_ne_plus c hc) j]
  exact bodyMatch_none_facts c rest hbm (j + 1) (by omega)

theorem candShape_take_plus (rest : List Char) (j : Nat) :
    candShape isPyDigit (('+' :: rest).take (j + 1)) =
      bodyShape isPyDigit (rest.take j) := by
  rw [List.take_succ_cons, candShape_cons_plus]

theorem longest_plus_nil (N : Nat) :
    longestAux isPyDigit ['+'] N = none := by
  apply longestAux_eq_none
  intro m h1 _
  obtain ⟨j, rfl⟩ : ∃ j, m = j + 1 := ⟨m - 1, by omega⟩
  rw [candShape_take_plus [] j, List.take_nil]
  rfl

theorem longest_plus_nodigit (d : Char) (rest2 : List Char)
    (hd : isPyDigit d = false) (N : Nat) :
    longestAux isPyDigit ('+' :: d :: rest2) N = none := by
  apply longestAux_eq_none
  intro m h1 _
  obtain ⟨j, rfl⟩ : ∃ j, m = j + 1 := ⟨m - 1, by omega⟩
  rw [candShape_take_plus (d :: rest2) j]
  exact bodyShape_head_not d rest2 hd j

theorem longest_plus_some (d : Char) (rest2 cand rem : List Char)
    (hd : isPyDigit d = true) (hbm : bodyMatch d rest2 = some (cand, rem)) :
    longestAux isPyDigit ('+' :: d :: rest2) (rest2.length + 2) =
      some (cand.length + 1) ∧
    ('+' :: d :: rest2).take (cand.length + 1) = '+' :: cand ∧
    ('+' :: d :: rest2).drop (cand.length + 1) = rem ∧
    rem.length ≤ rest2.length := by
  obtain ⟨hcand, hrem, h2, hle, hremlen, hshape, hmax⟩ :=
    bodyMatch_some_facts d rest2 cand rem hd hbm
  refine ⟨?_, ?_, ?_, hremlen⟩
  · have htrue : candShape isPyDigit
        (('+' :: d :: rest2).take (cand.length + 1)) = true := by
      rw [candShape_take_plus (d :: rest2) cand.length]
      exact hshape
    refine longestAux_eq_some isPyDigit ('+' :: d :: rest2) (cand.length + 1)
      (by omega) htrue (rest2.length + 2) (by omega) ?_
    intro m hm1 hm2
    obtain ⟨j, rfl⟩ : ∃ j, m = j + 1 := ⟨m - 1, by omega⟩
    rw [candShape_take_plus (d :: rest2) j]
    exact hmax j (by omega) (by omega)
  · rw [List.take_succ_cons, ← hcand]
  · rw [List.drop_succ_cons, ← hrem]

theorem longest_plus_none (d : Char) (rest2 : List Char)
    (_hd : isPyDigit d = true) (hbm : bodyMatch d rest2 = none) (N : Nat)
    (hN : N ≤ rest2.length + 2) :
    longestAux isPyDigit ('+' :: d :: rest2) N = none := by
  apply longestAux_eq_none
  intro m h1 h2
  obtain ⟨j, rfl⟩ : ∃ j, m = j + 1 := ⟨m - 1, by omega⟩
  rw [candShape_take_plus (d :: rest2) j]
  exact bodyMatch_none_facts d rest2 hbm j (by omega)

theorem findallSpecAux_nil (D : Char → Bool) (fuel : Nat) :
    findallSpecAux D fuel [] = [] := by
  cases fuel <;> rfl

theorem findAllAux_cons (fuel : Nat) (c : Char) (rest : List Char) :
    findAllAux (fuel + 1) (c :: rest) =
      if isPyDigit c then
        match bodyMatch c rest with
        | some (cand, rem) => cand :: findAllAux fuel rem
        | none => findAllAux fuel rest
      else if c = '+' then
        match rest with
        | [] => []
        | d :: rest2 =>
          if isPyDigit d then
            match bodyMatch d rest2 with
            | some (cand, rem) => ('+' :: cand) :: findAllAux fuel rem
            | none => findAllAux fuel rest
          else findAllAux fuel rest
      else findAllAux fuel rest := rfl

theorem findallSpecAux_cons (D : Char → Bool) (fuel : Nat) (c : Char)
    (rest : List Char) :
    findallSpecAux D (fuel + 1) (c :: rest) =
      match longestAux D (c :: rest) (c :: rest).length with
      | some n => (c :: rest).take n ::
          findallSpecAux D fuel ((c :: rest).drop n)
      | none => findallSpecAux D fuel rest := rfl

theorem findAllAux_digit_some (fuel : Nat) (c : Char) (rest cand rem : List Char)
    (hc : isPyDigit c = true) (hbm : bodyMatch c rest = some (cand, rem)) :
    findAllAux (fuel + 1) (c :: rest) = cand :: findAllAux fuel rem := by
  rw [findAllAux_cons, if_pos hc, hbm]

theorem findAllAux_digit_none (fuel : Nat) (c : Char) (rest : List Char)
    (hc : isPyDigit c = true) (hbm : bodyMatch c rest = none) :
    findAllAux (fuel + 1) (c :: rest) = findAllAux fuel rest := by
  rw [findAllAux_cons, if_pos hc, hbm]

theorem findAllAux_other (fuel : Nat) (c : Char) (rest : List Char)
    (hc : isPyDigit c = false) (hne : c ≠ '+') :
    findAllAux (fuel + 1) (c :: rest) = findAllAux fuel rest := by
  rw [findAllAux_cons, if_neg (by simp [hc]), if_neg hne]

theorem findAllAux_plus_nil (fuel : Nat) : findAllAux (fuel + 1) ['+'] = [] := by
  rw [findAllAux_cons, if_neg (by decide), if_pos rfl]

theorem findAllAux_plus_cons (fuel : Nat) (d : Char) (rest2 : List Char) :
    findAllAux (fuel + 1) ('+' :: d :: rest2) =
      if isPyDigit d then
        match bodyMatch d rest2 with
        | some (cand, rem) => ('+' :: cand) :: findAllAux fuel rem
        | none => findAllAux fuel (d :: rest2)
      else findAllAux fuel (d :: rest2) := rfl

theorem findAllAux_plus_digit_some (fuel : Nat) (d : Char)
    (rest2 cand rem : List Char) (hd : isPyDigit d = true)
    (hbm : bodyMatch d rest2 = some (cand, rem)) :
    findAllAux (fuel + 1) ('+' :: d :: rest2) =
      ('+' :: cand) :: findAllAux fuel rem := by
  rw [findAllAux_plus_cons, if_pos hd, hbm]

theorem findAllAux_plus_digit_none (fuel : Nat) (d : Char) (rest2 : List Char)
    (hd : isPyDigit d = true) (hbm : bodyMatch d rest2 = none) :
    findAllAux (fuel + 1) ('+' :: d :: rest2) = findAllAux fuel (d :: rest2) := by
  rw [findAllAux_plus_cons, if_pos hd, hbm]

theorem findAllAux_plus_nodigit (fuel : Nat) (d : Char) (rest2 : List Char)
    (hd : isPyDigit d = false) :
    findAllAux (fuel + 1) ('+' :: d :: rest2) = findAllAux fuel (d :: rest2) := by
  rw [findAllAux_plus_cons, if_neg (by simp [hd])]

theorem findallSpecAux_cons_some (D : Char → Bool) (fuel : Nat) (c : Char)
    (rest : List Char) (n : Nat)
    (h : longestAux D (c :: rest) (c :: rest).length = some n) :
    findallSpecAux D (fuel + 1) (c :: rest) =
      (c :: rest).take n :: findallSpecAux D fuel ((c :: rest).drop n) := by
  rw [findallSpecAux_cons, h]

theorem findallSpecAux_cons_none (D : Char → Bool) (fuel : Nat) (c : Char)
    (rest : List Char)
    (h : longestAux D (c :: rest) (c :: rest).length = none) :
    findallSpecAux D (fuel + 1) (c :: rest) = findallSpecAux D fuel rest := by
  rw [findallSpecAux_cons, h]

theorem findAllAux_eq_spec :
    ∀ (fuel : Nat) (s : List Char), s.length ≤ fuel →
      findAllAux fuel s = findallSpecAux isPyDigit fuel s := by
  intro fuel
  induction fuel with
  | zero =>
    intro s hs
    rw [List.length_eq_zero.mp (Nat.le_zero.mp hs)]
    rfl
  | succ fuel ih =>
    intro s hs
    match s with
    | [] => rfl
    | c :: rest =>
      have hrest : rest.length ≤ fuel := by
        rw [List.length_cons] at hs
        omega
      cases hcd : isPyDigit c with
      | true =>
        cases hbm : bodyMatch c rest with
        | some pr =>
          obtain ⟨cand, rem⟩ := pr
          obtain ⟨hlong, htake, hdrop, hremlen⟩ :=
            longest_digit_some c rest cand rem hcd hbm
          rw [findAllAux_digit_some fuel c rest cand rem hcd hbm,
            findallSpecAux_cons_some isPyDigit fuel c rest cand.length
              (by rw [List.length_cons]; exact hlong),
            htake, hdrop, ih rem (le_trans hremlen hrest)]
        | none =>
          rw [findAllAux_digit_none fuel c rest hcd hbm,
            findallSpecAux_cons_none isPyDigit fuel c rest
              (by rw [List.length_cons]
                  exact longest_digit_none c rest hcd hbm (rest.length + 1)
                    (le_refl _)),
            ih rest hrest]
      | false =>
        by_cases hplus : c = '+'
        · subst hplus
          cases rest with
          | nil =>
            rw [findAllAux_plus_nil fuel,
              findallSpecAux_cons_none isPyDigit fuel '+' []
                (longest_plus_nil _),
              findallSpecAux_nil]
          | cons d rest2 =>
            cases hdd : isPyDigit d with
            | true =>
              cases hbm : bodyMatch d rest2 with
              | some pr =>
                obtain ⟨cand, rem⟩ := pr
                obtain ⟨hlong, htake, hdrop, hremlen⟩ :=
                  longest_plus_some d rest2 cand rem hdd hbm
                have hrem2 : rem.length ≤ fuel := by
                  rw [List.length_cons] at hrest
                  omega
                rw [findAllAux_plus_digit_some fuel d rest2 cand rem hdd hbm,
                  findallSpecAux_cons_some isPyDigit fuel '+' (d :: rest2)
                    (cand.length + 1)
                    (by rw [List.length_cons, List.length_cons]
                        exact hlong),
                  htake, hdrop, ih rem hrem2]
              | none =>
                rw [findAllAux_plus_digit_none fuel d rest2 hdd hbm,
                  findallSpecAux_cons_none isPyDigit fuel '+' (d :: rest2)
                    (longest_plus_none d rest2 hdd hbm _ (by simp)),
                  ih (d :: rest2) hrest]
            | false =>
              rw [findAllAux_plus_nodigit fuel d rest2 hdd,
                findallSpecAux_cons_none isPyDigit fuel '+' (d :: rest2)
                  (longest_plus_nodigit d rest2 hdd _),
                ih (d :: rest2) hrest]
        · rw [findAllAux_other fuel c rest hcd hplus,
            findallSpecAux_cons_none isPyDigit fuel c rest
              (longest_none_other c rest hcd hplus _),
            ih rest hrest]

/-- Counterexample to claim C5 as stated: the cell text `０９` (two
full-width digits) yields one candidate under the code's scan, because `\d`
in the candidate regex matches any Unicode decimal digit, while the claimed
ASCII-digit candidate shape admits no candidate at all in that text. -/
theorem claim_C5_counterexample :
    candidate_re_findall (chars "０９") = [chars "０９"] ∧
    findallSpec isAsciiDigit (chars "０９") = [] :=
  ⟨by decide, by decide⟩

/-- Claim C5 (amended): for every cell text, the candidate scan returns
exactly the non-overlapping maximal substrings matching the candidate shape
- an optional leading `+`, then a run of Unicode decimal digits (Python
`\d`) and the whitespace/dash characters of section 4.1, beginning and
ending on a digit - found left-to-right with standard greedy regex-find
semantics (at each position the longest match), in their order of
appearance in the text. -/
theorem claim_C5_amended (s : List Char) :
    candidate_re_findall s = findallSpec isPyDigit s :=
  findAllAux_eq_spec s.length s (le_refl _)

end App
